import Mathlib

/-!
Verification of the terranotate comment parser, schema validator and fixer.

The Lean definitions below are a shallow embedding of the Go sources
`internal/parser/parser.go`, `internal/validator/validator.go` and
`internal/fixer/fixer.go`.  Pure Go functions become Lean functions; Go's
in-place map updates are rendered as functional updates of association
lists; Go maps are modelled as association lists (map iteration order is
modelled as insertion order; all order-sensitive claims are proved order
insensitively).  Machine integers are modelled as `Int` (no arithmetic in
the sources comes close to overflow) and Go `float64` schema bounds and
parsed float values as `Rat` (only order and comparison with zero matter
to the claims; the decimal rendering of numbers inside error messages is
abstracted by `toString`).  Go standard-library string functions are
re-implemented over `List Char` so that every definition evaluates by
kernel reduction.
-/

namespace Terranotate

/-! ## Go string helpers -/

/-- Go `strings.HasPrefix`. -/
def goHasPfx (s p : String) : Bool :=
  p.data.isPrefixOf s.data

/-- Go `strings.HasSuffix`. -/
def goHasSfx (s p : String) : Bool :=
  p.data.isSuffixOf s.data

/-- Go `strings.TrimPrefix`: drops `p` from the front of `s` when `s`
starts with `p`, otherwise returns `s` unchanged. -/
def goTrimPfx (s p : String) : String :=
  if goHasPfx s p then ⟨s.data.drop p.data.length⟩ else s

/-- Go `strings.TrimSuffix`. -/
def goTrimSfx (s p : String) : String :=
  if goHasSfx s p then ⟨s.data.take (s.data.length - p.data.length)⟩ else s

/-- Whitespace trimming on a character list, from both ends. -/
def trimChars (cs : List Char) : List Char :=
  ((cs.dropWhile Char.isWhitespace).reverse.dropWhile Char.isWhitespace).reverse

/-- Go `strings.TrimSpace`. -/
def goTrim (s : String) : String :=
  ⟨trimChars s.data⟩

/-- Leading-whitespace removal (used by the lexer model for the byte
offset at which a comment token starts). -/
def goTrimLeft (s : String) : String :=
  ⟨s.data.dropWhile Char.isWhitespace⟩

/-- Splitting a character list on a single separator character; mirrors
Go `strings.Split` for a one-character separator. -/
def splitOnChar (sep : Char) : List Char → List (List Char)
  | [] => [[]]
  | c :: rest =>
    let r := splitOnChar sep rest
    if c = sep then [] :: r
    else
      match r with
      | [] => [[c]]
      | h :: t => (c :: h) :: t

/-- Go `strings.Split` with a one-character separator. -/
def goSplitChar (s : String) (sep : Char) : List String :=
  (splitOnChar sep s.data).map (fun cs => ⟨cs⟩)

/-- Go `strings.Join`. -/
def joinChars (sep : List Char) : List (List Char) → List Char
  | [] => []
  | [x] => x
  | x :: xs => x ++ sep ++ joinChars sep xs

/-- Go `strings.Join` over strings. -/
def goJoin (sep : String) (xs : List String) : String :=
  ⟨joinChars sep.data (xs.map String.data)⟩

/-- First character index at which `sub` occurs inside `s`
(Go `strings.Index`, `none` for Go's `-1`). -/
def listIndexOfSub (s sub : List Char) : Option Nat :=
  match s with
  | [] => if sub.isEmpty then some 0 else none
  | _ :: t => if sub.isPrefixOf s then some 0 else (listIndexOfSub t sub).map (· + 1)

/-- Go `strings.Contains`. -/
def goContains (s sub : String) : Bool :=
  (listIndexOfSub s.data sub.data).isSome

/-- Go `strings.SplitN(s, sep, 2)`: split at the first occurrence of
`sep` only. -/
def goSplitN2 (s sep : String) : List String :=
  match listIndexOfSub s.data sep.data with
  | none => [s]
  | some i => [⟨s.data.take i⟩, ⟨s.data.drop (i + sep.data.length)⟩]

/-- The text strictly between the first two single quotes of `s`, the way
the fixer recovers a field name from a validation message
(`strings.Index` on the quote character, twice). -/
def extractQuoted (s : String) : Option String :=
  match splitOnChar (Char.ofNat 39) s.data with
  | _ :: inner :: _ :: _ => some ⟨inner⟩
  | _ => none

/-- Go `len` of a string: its UTF-8 byte count. -/
def goByteLen (s : String) : Nat :=
  s.data.foldl (fun n c => n + c.utf8Size) 0

/-! ## Go `fmt.Sscanf` number scanning

`fmt.Sscanf(value, "%d", &i)` succeeds as soon as an optionally signed
run of decimal digits starts the string; any trailing input (such as the
`.9` of `99.9`) is ignored.  `%f` likewise scans a leading float token
and ignores the rest. -/

/-- Decimal digits to a natural number. -/
def digitsToNat (ds : List Char) : Nat :=
  ds.foldl (fun n c => n * 10 + (c.toNat - '0'.toNat)) 0

/-- Go `fmt.Sscanf(s, "%d", &i)`: optional sign, then at least one
decimal digit; trailing input is ignored. -/
def goScanInt (s : String) : Option Int :=
  let signRest : Int × List Char :=
    match s.data with
    | '-' :: t => (-1, t)
    | '+' :: t => (1, t)
    | cs => (1, cs)
  match signRest.2.takeWhile Char.isDigit with
  | [] => none
  | ds => some (signRest.1 * (digitsToNat ds : Int))

/-- Go `fmt.Sscanf(s, "%f", &f)`: optional sign, digits with an optional
fractional part (at least one digit overall), optional exponent;
trailing input is ignored.  The value is modelled exactly as a rational. -/
def goScanFloat (s : String) : Option Rat :=
  let signRest : Rat × List Char :=
    match s.data with
    | '-' :: t => (-1, t)
    | '+' :: t => (1, t)
    | cs => (1, cs)
  let intDigits := signRest.2.takeWhile Char.isDigit
  let rest2 := signRest.2.drop intDigits.length
  let fracRest : List Char × List Char :=
    match rest2 with
    | '.' :: t => (t.takeWhile Char.isDigit, t.drop (t.takeWhile Char.isDigit).length)
    | _ => ([], rest2)
  if intDigits.isEmpty && fracRest.1.isEmpty then none
  else
    let mantissa : Rat :=
      (digitsToNat intDigits : Rat) + (digitsToNat fracRest.1 : Rat) / ((10 : Rat) ^ fracRest.1.length)
    match fracRest.2 with
    | c :: t =>
      if c = 'e' || c = 'E' then
        let esignRest : Int × List Char :=
          match t with
          | '-' :: u => (-1, u)
          | '+' :: u => (1, u)
          | cs => (1, cs)
        match esignRest.2.takeWhile Char.isDigit with
        | [] => none
        | eds => some (signRest.1 * mantissa * (10 : Rat) ^ (esignRest.1 * (digitsToNat eds : Int)))
      else some (signRest.1 * mantissa)
    | [] => some (signRest.1 * mantissa)

/-! ## The parsed-value data model

Go stores parsed comment fields in a `map[string]interface\x7b\x7d`
whose values are strings, bools, ints, float64s, `[]interface\x7b\x7d`
slices and nested maps.  Maps are modelled as association lists. -/

/-- A dynamic value as stored in `StructuredComment.Fields`. -/
inductive Value where
  | str (s : String)
  | boolean (b : Bool)
  | intv (n : Int)
  | floatv (q : Rat)
  | arr (items : List Value)
  | obj (fields : List (String × Value))

/-- The comment-field mapping. -/
abbrev Fields := List (String × Value)

/-- Go map read `m[k]`. -/
def alistLookup {α : Type} (m : List (String × α)) (k : String) : Option α :=
  match m with
  | [] => none
  | (k2, v) :: rest => if k2 = k then some v else alistLookup rest k

/-- Go map write `m[k] = v`: replaces the existing binding or appends. -/
def alistInsert {α : Type} (m : List (String × α)) (k : String) (v : α) : List (String × α) :=
  match m with
  | [] => [(k, v)]
  | (k2, w) :: rest => if k2 = k then (k2, v) :: rest else (k2, w) :: alistInsert rest k v

/-! ## internal/parser/parser.go -/

/-- `parseValue`: boolean literals first, then `%d`, then `%f`, then
`[...]` array notation, else the raw string. -/
def parseValue (value : String) : Value :=
  let value := goTrim value
  if value = "true" then .boolean true
  else if value = "false" then .boolean false
  else
    match goScanInt value with
    | some i => .intv i
    | none =>
      match goScanFloat value with
      | some f => .floatv f
      | none =>
        if goHasPfx value "[" && goHasSfx value "]" then
          let inner := goTrimSfx (goTrimPfx value "[") "]"
          .arr ((goSplitChar inner ',').map (fun item => .str (goTrim item)))
        else .str value

/-- `setNestedField`'s navigation loop, with the Go in-place map updates
rendered functionally.  `fullKey` is the original dotted key: when an
intermediate segment holds a non-map value, the full key is stored
literally in the map navigated to so far (`current[key] = ...` in Go). -/
def setNestedGo (fields : Fields) (fullKey : String) (parts : List String) (value : String) : Fields :=
  match parts with
  | [] => fields
  | [last] => alistInsert fields last (parseValue value)
  | p :: rest =>
    match alistLookup fields p with
    | none => alistInsert fields p (.obj (setNestedGo [] fullKey rest value))
    | some (.obj m) => alistInsert fields p (.obj (setNestedGo m fullKey rest value))
    | some _ => alistInsert fields fullKey (parseValue value)

/-- `setNestedField`: sets a value along the dot-separated path of `key`. -/
def setNestedField (fields : Fields) (key value : String) : Fields :=
  setNestedGo fields key (goSplitChar key '.') value

/-- Go regexp `\w`: ASCII word characters. -/
def isWordChar (c : Char) : Bool :=
  c.isAlphanum || c = '_'

/-- One match of the field regexp `([\w\.]+):(\S+)` anchored at the head
of `cs`: a maximal nonempty run of word characters and dots, a colon,
then a maximal nonempty run of non-whitespace.  Returns the two capture
groups and the input remaining after the match. -/
def matchKeyValueAt (cs : List Char) : Option (String × String × List Char) :=
  match cs.takeWhile (fun c => isWordChar c || c = '.') with
  | [] => none
  | keyRun =>
    match cs.drop keyRun.length with
    | ':' :: afterColon =>
      match afterColon.takeWhile (fun c => !c.isWhitespace) with
      | [] => none
      | valRun => some (⟨keyRun⟩, ⟨valRun⟩, afterColon.drop valRun.length)
    | _ => none

/-- All successive leftmost non-overlapping matches of the field regexp
(Go `FindAllStringSubmatch`), driven by a character budget for
termination. -/
def findKeyValuePairsFuel : Nat → List Char → List (String × String)
  | 0, _ => []
  | _, [] => []
  | fuel + 1, c :: rest =>
    match matchKeyValueAt (c :: rest) with
    | some (k, v, remaining) => (k, v) :: findKeyValuePairsFuel fuel remaining
    | none => findKeyValuePairsFuel fuel rest

/-- All `key:value` matches in one line. -/
def findKeyValuePairs (line : String) : List (String × String) :=
  findKeyValuePairsFuel line.data.length line.data

/-- `extractKeyValuePairs`: folds every regexp match into the fields map,
routing dotted keys through `setNestedField`. -/
def extractKeyValuePairs (line : String) (fields : Fields) : Fields :=
  (findKeyValuePairs line).foldl
    (fun fs kv =>
      let key := kv.1
      let value := goTrim kv.2
      if key.data.contains '.' then setNestedField fs key value
      else alistInsert fs key (parseValue value))
    fields

/-- `parseCommentFields`: strips the first matching configured marker
from the first line, extracts `key:value` pairs from every line, and
stores the full cleaned text under the synthetic `_content` key. -/
def parseCommentFields (pfxs : List String) (text : String) : Fields :=
  let lines := goSplitChar text '\n'
  let lines :=
    match lines with
    | [] => []
    | first :: rest =>
      (match pfxs.find? (fun p => goHasPfx first p) with
       | some p => goTrim (goTrimPfx first p)
       | none => first) :: rest
  let fields := lines.foldl
    (fun fs line =>
      let line := goTrim line
      if line = "" then fs else extractKeyValuePairs line fs)
    []
  let fullContent := goTrim (goJoin "\n" lines)
  if fullContent = "" then fields else alistInsert fields "_content" (.str fullContent)

/-- A parsed structured comment.  `pfx` embeds the Go field `Prefix`, the
matched configured marker. -/
structure StructuredComment where
  pfx : String
  fields : Fields
  raw : String
  line : Int
  endLine : Int

/-- The comment-marker cleaning loop of `parseMultiLineComment`: strip
`//` then `#`, trim, and drop lines that become empty. -/
def cleanCommentLines (lines : List String) : List String :=
  lines.foldr
    (fun l acc =>
      let cleaned := goTrim (goTrimPfx (goTrimPfx l "//") "#")
      if cleaned = "" then acc else cleaned :: acc)
    []

/-- `parseMultiLineComment`: a block is kept only when its first cleaned
line starts with a configured marker (checked in configured order, first
match wins); otherwise the block yields no structured comment. -/
def parseMultiLineComment (pfxs : List String) (lines : List String) (startLine endLine : Int) :
    Option StructuredComment :=
  if lines.isEmpty then none
  else
    match cleanCommentLines lines with
    | [] => none
    | first :: restCleaned =>
      match pfxs.find? (fun p => goHasPfx first p) with
      | none => none
      | some matchedPfx =>
        let fullText := goJoin "\n" (first :: restCleaned)
        some { pfx := matchedPfx
               fields := parseCommentFields pfxs fullText
               raw := fullText
               line := startLine
               endLine := endLine }

/-- A comment token of the host-language lexer: its text (starting at the
comment marker) and its 1-based start line. -/
structure CommentToken where
  text : String
  line : Int

/-- Maximal runs of comment tokens on consecutive lines, mirroring the
grouping loop of `extractComments` (a gap of more than one line, or an
intervening non-comment token, ends a block; for the full-line comments
modelled here the two conditions coincide). -/
def splitRuns : List CommentToken → List (List CommentToken)
  | [] => []
  | t :: rest =>
    match splitRuns rest with
    | [] => [[t]]
    | [] :: gs => [t] :: [] :: gs
    | (u :: g) :: gs =>
      if u.line = t.line + 1 then (t :: u :: g) :: gs
      else [t] :: (u :: g) :: gs

/-- `extractComments`: group the comment tokens into blocks and parse
each block. -/
def extractComments (pfxs : List String) (tokens : List CommentToken) : List StructuredComment :=
  (splitRuns tokens).filterMap
    (fun g =>
      match g with
      | [] => none
      | t :: _ => parseMultiLineComment pfxs (g.map CommentToken.text) t.line ((g.getLastD t).line))

/-- A parsed resource with its associated comments.  The Go struct also
carries an `Attributes` map; no claim mentions it, so it is omitted. -/
structure TerraformResource where
  type : String
  name : String
  startLine : Int
  endLine : Int
  precedingComments : List StructuredComment
  inlineComments : List StructuredComment

/-- The comment-association loop of `parseResource` (parser.go:336-347):
preceding when strictly before the start line and within the 5-line
window, inline when within the resource's line range. -/
def associateComments (rtype rname : String) (startLine endLine : Int)
    (comments : List StructuredComment) : TerraformResource :=
  { type := rtype
    name := rname
    startLine := startLine
    endLine := endLine
    precedingComments :=
      comments.filter (fun c => decide (c.line < startLine ∧ startLine - 5 ≤ c.line))
    inlineComments :=
      comments.filter (fun c => decide (startLine ≤ c.line ∧ c.line ≤ endLine)) }

/-- `GetCommentsByPrefix`: preceding before inline, filtered by marker. -/
def getCommentsByPfx (r : TerraformResource) (pfx : String) : List StructuredComment :=
  (r.precedingComments ++ r.inlineComments).filter (fun c => c.pfx = pfx)

/-! ## A line-level model of the host-language (HCL) front end

`ParseFile` delegates lexing and block structure to the external
`hashicorp/hcl` library, which is not part of this repository.  The model
below reproduces its behaviour on the restricted input class exercised by
the end-to-end claims: flat files whose comments are full-line `#` or
`//` comments and whose `resource` blocks start with
`resource "TYPE" "NAME" ` on one line and end at the next line whose
trimmed content is a single closing brace.  On this class the lexer
emits one comment token per comment line (the token text starting at the
comment marker) and `DefRange().Start.Line` / `Range().End.Line` are the
declaration and closing-brace lines. -/

/-- Comment tokens of a file, one per full-line comment. -/
def commentTokensFrom : Int → List String → List CommentToken
  | _, [] => []
  | n, l :: rest =>
    let t := goTrimLeft l
    if goHasPfx t "#" || goHasPfx t "//" then
      { text := t, line := n } :: commentTokensFrom (n + 1) rest
    else commentTokensFrom (n + 1) rest

/-- The two quoted labels of a `resource "TYPE" "NAME"` header line. -/
def parseQuoted2 (s : String) : Option (String × String) :=
  match goSplitChar s '"' with
  | _ :: a :: _ :: b :: _ => some (a, b)
  | _ => none

/-- Line number of the closing brace of a block opened before line `n`. -/
def closeLineFrom : Int → List String → Option Int
  | _, [] => none
  | n, l :: rest => if goTrim l = "\x7d" then some n else closeLineFrom (n + 1) rest

/-- All resource declarations of a flat file, with their line ranges. -/
def resourceDecls : Int → List String → List (String × String × Int × Int)
  | _, [] => []
  | n, l :: rest =>
    let tail := resourceDecls (n + 1) rest
    if goHasPfx (goTrimLeft l) "resource \"" then
      match parseQuoted2 l, closeLineFrom (n + 1) rest with
      | some (t, nm), some e => (t, nm, n, e) :: tail
      | _, _ => tail
    else tail

/-- `ParseFile` over the line-level model: extract comment blocks, then
associate them with every resource declaration. -/
def parseTf (pfxs : List String) (lines : List String) : List TerraformResource :=
  let comments := extractComments pfxs (commentTokensFrom 1 lines)
  (resourceDecls 1 lines).map
    (fun d => associateComments d.1 d.2.1 d.2.2.1 d.2.2.2 comments)

/-! ## internal/validator/validator.go -/

/-- Type and value constraints for a field (`FieldValidation`).  The Go
`Min`/`Max` bounds are `float64`; they are modelled as rationals. -/
structure FieldValidation where
  type : String
  allowedValues : List String
  pattern : String
  minLength : Int
  min : Rat
  max : Rat
  minItems : Int

/-- Validation rules for nested field structures (`NestedRule`). -/
structure NestedRule where
  requiredFields : List String
  optionalFields : List String

/-- Validation rules for a comment marker (`PrefixRule`). -/
structure PrefixRule where
  requiredFields : List String
  optionalFields : List String
  nestedFields : List (String × NestedRule)

/-- Rules applicable to one resource type; `GlobalRules` has the same
shape and is represented by the same structure. -/
structure ResourceRules where
  requiredPfxs : List String
  prefixRules : List (String × PrefixRule)

/-- The complete validation schema (`ValidationSchema`). -/
structure ValidationSchema where
  global : ResourceRules
  resourceTypes : List (String × ResourceRules)
  fieldValidations : List (String × FieldValidation)

/-- A validation failure (`ValidationError`). -/
structure ValidationError where
  resourceType : String
  resourceName : String
  line : Int
  severity : String
  message : String
deriving DecidableEq

/-- All errors are emitted through this constructor, with severity
`"error"`. -/
def mkValErr (r : TerraformResource) (line : Int) (msg : String) : ValidationError :=
  { resourceType := r.type
    resourceName := r.name
    line := line
    severity := "error"
    message := msg }

/-- A singleton error list guarded by a condition. -/
def errIf (b : Prop) [Decidable b] (e : ValidationError) : List ValidationError :=
  if b then [e] else []

/-- `fieldExists`: walks the dot-separated path through nested maps; the
final segment may hold a value of any shape. -/
def fieldExistsParts : Fields → List String → Bool
  | _, [] => false
  | current, [p] => (alistLookup current p).isSome
  | current, p :: rest =>
    match alistLookup current p with
    | some (.obj nested) => fieldExistsParts nested rest
    | _ => false

/-- `fieldExists` over a dotted path string. -/
def fieldExists (fields : Fields) (path : String) : Bool :=
  fieldExistsParts fields (goSplitChar path '.')

/-- `checkRequiredPrefixes`: one error per required marker that no
associated comment carries. -/
def checkRequiredPfxs (r : TerraformResource) (rules : ResourceRules) : List ValidationError :=
  rules.requiredPfxs.filterMap
    (fun req =>
      if (getCommentsByPfx r req).isEmpty then
        some (mkValErr r r.startLine ("Missing required comment prefix: " ++ req))
      else none)

/-- Outcome of walking a dotted path through the fields of a comment. -/
inductive WalkResult where
  | found (m : Fields)
  | nonMap
  | missing

/-- The navigation loop of `validateNestedFields`. -/
def walkPath : Fields → List String → WalkResult
  | current, [] => .found current
  | current, p :: rest =>
    match alistLookup current p with
    | some (.obj nested) => walkPath nested rest
    | some _ => .nonMap
    | none => .missing

/-- `validateNestedFields`: missing nested structures and missing
required fields inside a nested structure. -/
def validateNestedFields (r : TerraformResource) (c : StructuredComment)
    (pfx nestedPath : String) (rule : NestedRule) : List ValidationError :=
  match walkPath c.fields (goSplitChar nestedPath '.') with
  | .nonMap => []
  | .missing =>
    errIf (rule.requiredFields ≠ [])
      (mkValErr r c.line (pfx ++ ": Missing nested structure '" ++ nestedPath ++ "'"))
  | .found current =>
    rule.requiredFields.filterMap
      (fun f =>
        if f.data.contains '.' then
          let fullPath := nestedPath ++ "." ++ f
          if fieldExists c.fields fullPath then none
          else some (mkValErr r c.line (pfx ++ ": Missing required nested field '" ++ fullPath ++ "'"))
        else
          if (alistLookup current f).isSome then none
          else some (mkValErr r c.line
            (pfx ++ ": Missing required field '" ++ nestedPath ++ "." ++ f ++ "'")))

/-- Go's `%T` rendering of the dynamic type of a field value. -/
def goTypeName : Value → String
  | .str _ => "string"
  | .boolean _ => "bool"
  | .intv _ => "int"
  | .floatv _ => "float64"
  | .arr _ => "[]interface \x7b\x7d"
  | .obj _ => "map[string]interface \x7b\x7d"

/-- Go's `%v` rendering of the allowed-values string slice. -/
def showStrSlice (xs : List String) : String :=
  "[" ++ goJoin " " xs ++ "]"

/-- Decimal rendering of the numbers appearing in bound-violation
messages (Go uses `%v` and `%.2f`; the exact digits are abstracted). -/
def showRat (q : Rat) : String :=
  toString q.num ++ "/" ++ toString q.den

/-- `validateFieldValue`: the type dispatch and per-type value checks.
`rxOk` abstracts Go's `regexp.MatchString`: it returns `true` when the
pattern matches or fails to compile (either way Go emits no error), so
every theorem below holds for every regular-expression semantics. -/
def validateFieldValue (rxOk : String → String → Bool) (r : TerraformResource)
    (c : StructuredComment) (pfx fieldName : String) (fieldValue : Value)
    (validation : FieldValidation) : List ValidationError :=
  if validation.type = "string" then
    match fieldValue with
    | .str strVal =>
      errIf (validation.pattern ≠ "" ∧ rxOk validation.pattern strVal = false)
        (mkValErr r c.line (pfx ++ ": Field '" ++ fieldName ++ "' value '" ++ strVal ++
          "' does not match required pattern '" ++ validation.pattern ++ "'"))
      ++ errIf (validation.allowedValues ≠ [] ∧ validation.allowedValues.contains strVal = false)
        (mkValErr r c.line (pfx ++ ": Field '" ++ fieldName ++ "' value '" ++ strVal ++
          "' not in allowed values: " ++ showStrSlice validation.allowedValues))
      ++ errIf (0 < validation.minLength ∧ (goByteLen strVal : Int) < validation.minLength)
        (mkValErr r c.line (pfx ++ ": Field '" ++ fieldName ++ "' must be at least " ++
          toString validation.minLength ++ " characters, got " ++ toString (goByteLen strVal)))
    | v => [mkValErr r c.line (pfx ++ ": Field '" ++ fieldName ++ "' must be a string, got " ++ goTypeName v)]
  else if validation.type = "boolean" then
    match fieldValue with
    | .boolean _ => []
    | v => [mkValErr r c.line (pfx ++ ": Field '" ++ fieldName ++ "' must be a boolean, got " ++ goTypeName v)]
  else if validation.type = "integer" then
    match fieldValue with
    | .intv intVal =>
      errIf (validation.min ≠ 0 ∧ (intVal : Rat) < validation.min)
        (mkValErr r c.line (pfx ++ ": Field '" ++ fieldName ++ "' value " ++ toString intVal ++
          " is below minimum " ++ showRat validation.min))
      ++ errIf (validation.max ≠ 0 ∧ validation.max < (intVal : Rat))
        (mkValErr r c.line (pfx ++ ": Field '" ++ fieldName ++ "' value " ++ toString intVal ++
          " exceeds maximum " ++ showRat validation.max))
    | v => [mkValErr r c.line (pfx ++ ": Field '" ++ fieldName ++ "' must be an integer, got " ++ goTypeName v)]
  else if validation.type = "float" then
    match fieldValue with
    | .floatv floatVal =>
      errIf (validation.min ≠ 0 ∧ floatVal < validation.min)
        (mkValErr r c.line (pfx ++ ": Field '" ++ fieldName ++ "' value " ++ showRat floatVal ++
          " is below minimum " ++ showRat validation.min))
      ++ errIf (validation.max ≠ 0 ∧ validation.max < floatVal)
        (mkValErr r c.line (pfx ++ ": Field '" ++ fieldName ++ "' value " ++ showRat floatVal ++
          " exceeds maximum " ++ showRat validation.max))
    | v => [mkValErr r c.line (pfx ++ ": Field '" ++ fieldName ++ "' must be a float, got " ++ goTypeName v)]
  else if validation.type = "array" then
    match fieldValue with
    | .arr arrVal =>
      errIf (0 < validation.minItems ∧ (arrVal.length : Int) < validation.minItems)
        (mkValErr r c.line (pfx ++ ": Field '" ++ fieldName ++ "' must have at least " ++
          toString validation.minItems ++ " items, got " ++ toString arrVal.length))
    | v => [mkValErr r c.line (pfx ++ ": Field '" ++ fieldName ++ "' must be an array, got " ++ goTypeName v)]
  else []

/-- `validateFieldValues`: per-field value constraints, keyed by the
top-level field name; the synthetic `_content` field is skipped. -/
def validateFieldValues (rxOk : String → String → Bool)
    (fieldValidations : List (String × FieldValidation)) (r : TerraformResource)
    (c : StructuredComment) (pfx : String) : List ValidationError :=
  c.fields.flatMap
    (fun fv =>
      if fv.1 = "_content" then []
      else
        match alistLookup fieldValidations fv.1 with
        | none => []
        | some validation => validateFieldValue rxOk r c pfx fv.1 fv.2 validation)

/-- `validatePrefixFields`: missing required fields, nested-field rules,
then value constraints. -/
def validatePfxFields (rxOk : String → String → Bool)
    (fieldValidations : List (String × FieldValidation)) (r : TerraformResource)
    (c : StructuredComment) (pfx : String) (rule : PrefixRule) : List ValidationError :=
  rule.requiredFields.filterMap
    (fun f =>
      if fieldExists c.fields f then none
      else some (mkValErr r c.line (pfx ++ ": Missing required field '" ++ f ++ "'")))
  ++ rule.nestedFields.flatMap (fun nr => validateNestedFields r c pfx nr.1 nr.2)
  ++ validateFieldValues rxOk fieldValidations r c pfx

/-- `validateResource` against an already-resolved rule set: required
markers first, then every comment under every configured marker rule.
(The `isPrefixRequired` check in the Go loop is dead code: both branches
`continue`, so markers without comments are simply skipped.) -/
def validateResourceRules (rxOk : String → String → Bool)
    (fieldValidations : List (String × FieldValidation)) (rules : ResourceRules)
    (r : TerraformResource) : List ValidationError :=
  checkRequiredPfxs r rules
  ++ rules.prefixRules.flatMap
    (fun pr => (getCommentsByPfx r pr.1).flatMap
      (fun c => validatePfxFields rxOk fieldValidations r c pr.1 pr.2))

/-- `getApplicableRules`: resource-type rules when present, else the
global rules. -/
def getApplicableRules (schema : ValidationSchema) (resourceType : String) : ResourceRules :=
  match alistLookup schema.resourceTypes resourceType with
  | some rules => rules
  | none => schema.global

/-- Aggregated result of `ValidateResources`.  The Go struct also has an
always-empty `Warnings` slice, which no code path populates. -/
structure ValidationResult where
  errors : List ValidationError
  passed : Bool

/-- `ValidateResources`: validate every resource, accumulate the errors,
and clear `Passed` whenever a resource produced any error. -/
def validateResources (rxOk : String → String → Bool) (schema : ValidationSchema)
    (resources : List TerraformResource) : ValidationResult :=
  resources.foldl
    (fun acc r =>
      let errs := validateResourceRules rxOk schema.fieldValidations
        (getApplicableRules schema r.type) r
      { errors := acc.errors ++ errs, passed := acc.passed && errs.isEmpty })
    { errors := [], passed := true }

/-! ## internal/fixer/fixer.go -/

/-- A fix to apply (`CommentFix`): a marker and placeholder field
values. -/
structure CommentFix where
  pfx : String
  fields : List (String × String)

/-- The grouping key of `groupErrorsByResource`: any parenthesised
file-qualifier suffix on the resource type is stripped, then
`type.name`. -/
def errResourceKey (e : ValidationError) : String :=
  let rt :=
    match listIndexOfSub e.resourceType.data " (".data with
    | some i => (⟨e.resourceType.data.take i⟩ : String)
    | none => e.resourceType
  rt ++ "." ++ e.resourceName

/-- The per-resource slice of the `groupErrorsByResource` map: grouping
into a Go map and reading one key back is the order-preserving filter of
the errors with that key. -/
def errorsForResource (errors : List ValidationError) (key : String) : List ValidationError :=
  errors.filter (fun e => errResourceKey e = key)

/-- The fixed placeholder lookup table of `getPlaceholderValue`. -/
def placeholderTable : List (String × String) :=
  [("owner", "CHANGEME"), ("team", "CHANGEME"), ("priority", "medium"),
   ("environment", "production"), ("email", "changeme@example.com"),
   ("slack", "@changeme"), ("phone", "555-0000"),
   ("description", "CHANGEME: Add description"), ("required", "true"),
   ("enabled", "true"), ("backup", "true"), ("encrypted", "true"),
   ("cost_center", "CHANGEME"), ("department", "CHANGEME"),
   ("emergency_contact", "oncall@example.com"), ("uptime", "99.9"),
   ("replicas", "3"), ("backup_required", "true"), ("mfa_required", "true"),
   ("password_policy", "strict")]

/-- Go `fmt.Sprintf("%d", int(q))` for a positive float minimum:
truncation toward zero. -/
def showRatFloor (q : Rat) : String :=
  toString q.floor

/-- Go `fmt.Sprintf("%.1f", q)`; the decimal rendering is abstracted. -/
def showRat1 (q : Rat) : String :=
  showRat q

/-- `getPlaceholderValue`: the lookup table on the leaf field name, then
schema-driven defaults, then the literal `CHANGEME`. -/
def getPlaceholderValue (schema : ValidationSchema) (field : String) : String :=
  let parts := goSplitChar field '.'
  let fieldName := parts.getLastD field
  match alistLookup placeholderTable fieldName with
  | some v => v
  | none =>
    match alistLookup schema.fieldValidations fieldName with
    | some validation =>
      if validation.allowedValues ≠ [] then validation.allowedValues.headD ""
      else if validation.type = "boolean" then "true"
      else if validation.type = "integer" then
        if 0 < validation.min then showRatFloor validation.min else "1"
      else if validation.type = "float" then
        if 0 < validation.min then showRat1 validation.min else "1.0"
      else if validation.type = "array" then "[CHANGEME]"
      else "CHANGEME"
    | none => "CHANGEME"

/-- `generatePrefixFix`: placeholders for every required flat field and
every required nested field of the marker's rule; no fix when the
resolved rules carry no rule for the marker. -/
def generatePfxFix (schema : ValidationSchema) (pfx : String) (rules : ResourceRules) :
    Option CommentFix :=
  match alistLookup rules.prefixRules pfx with
  | none => none
  | some prefixRule =>
    let fields := prefixRule.requiredFields.foldl
      (fun fs f => alistInsert fs f (getPlaceholderValue schema f)) []
    let fields := prefixRule.nestedFields.foldl
      (fun fs nr => nr.2.requiredFields.foldl
        (fun fs2 f => alistInsert fs2 (nr.1 ++ "." ++ f) (getPlaceholderValue schema f)) fs)
      fields
    some { pfx := pfx, fields := fields }

/-- `generateFieldFix`: placeholders for the named missing fields. -/
def generateFieldFix (schema : ValidationSchema) (pfx : String) (fields : List String) :
    CommentFix :=
  { pfx := pfx
    fields := fields.foldl (fun fs f => alistInsert fs f (getPlaceholderValue schema f)) [] }

/-- Appends a value to the field list kept per marker in the
`missingFields` map of `generateFixes`. -/
def alistAppend (m : List (String × List String)) (k : String) (v : String) :
    List (String × List String) :=
  match m with
  | [] => [(k, [v])]
  | (k2, vs) :: rest => if k2 = k then (k2, vs ++ [v]) :: rest else (k2, vs) :: alistAppend rest k v

/-- The error-message scanning pass of `generateFixes`: missing-marker
messages collect marker names (a set, modelled as a deduplicated list in
first-seen order), missing-field messages collect field names per marker
(marker parsed from the text before the first colon, field from the
first single-quoted token). -/
def collectMissingStep (acc : List String × List (String × List String))
    (e : ValidationError) : List String × List (String × List String) :=
  if goContains e.message "Missing required comment prefix:" then
    let p := goTrim (goTrimPfx e.message "Missing required comment prefix:")
    (if acc.1.contains p then acc.1 else acc.1 ++ [p], acc.2)
  else if goContains e.message "Missing required field" then
    match goSplitN2 e.message ":" with
    | [a, b] =>
      let p := goTrim a
      (match extractQuoted (goTrim b) with
       | some f => (acc.1, alistAppend acc.2 p f)
       | none => acc)
    | _ => acc
  else acc

def collectMissing (errors : List ValidationError) :
    List String × List (String × List String) :=
  errors.foldl collectMissingStep ([], [])

/-- `generateFixes`: marker fixes first, then field fixes. -/
def generateFixes (schema : ValidationSchema) (r : TerraformResource)
    (errors : List ValidationError) : List CommentFix :=
  let rules := getApplicableRules schema r.type
  let missing := collectMissing errors
  missing.1.filterMap (fun p => generatePfxFix schema p rules)
  ++ missing.2.map (fun pf => generateFieldFix schema pf.1 pf.2)

/-- Splits a fix's fields into root fields and per-path nested fields,
as both comment-block builders do. -/
def splitFixFields (fields : List (String × String)) :
    List (String × String) × List (String × List (String × String)) :=
  fields.foldl
    (fun acc fv =>
      if fv.1.data.contains '.' then
        match goSplitN2 fv.1 "." with
        | [p, rest] =>
          let inner := (alistLookup acc.2 p).getD []
          (acc.1, alistInsert acc.2 p (alistInsert inner rest fv.2))
        | _ => acc
      else (alistInsert acc.1 fv.1 fv.2, acc.2))
    ([], [])

/-- `buildUnorderedCommentBlock`: the fallback when the schema has no
rule for the marker. -/
def buildUnorderedBlock (fix : CommentFix) : List String :=
  let rootNested := splitFixFields fix.fields
  let commentLine := rootNested.1.foldl
    (fun line fv => line ++ " " ++ fv.1 ++ ":" ++ fv.2) ("# " ++ fix.pfx)
  commentLine :: rootNested.2.map
    (fun nf => nf.2.foldl (fun line fv => line ++ " " ++ nf.1 ++ "." ++ fv.1 ++ ":" ++ fv.2) "#")

/-- `buildCommentBlock` for one fix: fields ordered by the schema's
required-then-optional declaration order, nested groups on their own
comment lines.  `getSchemaRuleForPrefix` consults the global rules
only. -/
def buildCommentBlockOne (schema : ValidationSchema) (fix : CommentFix) : List String :=
  match alistLookup schema.global.prefixRules fix.pfx with
  | none => buildUnorderedBlock fix
  | some prefixRule =>
    let rootNested := splitFixFields fix.fields
    let commentLine := prefixRule.requiredFields.foldl
      (fun line f =>
        match alistLookup rootNested.1 f with
        | some v => line ++ " " ++ f ++ ":" ++ v
        | none => line)
      ("# " ++ fix.pfx)
    let commentLine := prefixRule.optionalFields.foldl
      (fun line f =>
        match alistLookup rootNested.1 f with
        | some v => line ++ " " ++ f ++ ":" ++ v
        | none => line)
      commentLine
    commentLine :: prefixRule.nestedFields.flatMap
      (fun nr =>
        match alistLookup rootNested.2 nr.1 with
        | some fieldMap =>
          if fieldMap.isEmpty then []
          else
            let nestedLine := nr.2.requiredFields.foldl
              (fun line f =>
                match alistLookup fieldMap f with
                | some v => line ++ " " ++ nr.1 ++ "." ++ f ++ ":" ++ v
                | none => line)
              "#"
            let nestedLine := nr.2.optionalFields.foldl
              (fun line f =>
                match alistLookup fieldMap f with
                | some v => line ++ " " ++ nr.1 ++ "." ++ f ++ ":" ++ v
                | none => line)
              nestedLine
            if 1 < goByteLen nestedLine then [nestedLine] else []
        | none => [])

/-- `buildCommentBlock` over all fixes. -/
def buildCommentBlock (schema : ValidationSchema) (fixes : List CommentFix) : List String :=
  fixes.flatMap (buildCommentBlockOne schema)

/-- `allPrefixesHaveComments`: true exactly when no error message carries
either structural trigger phrase (the Go function first returns false on
any missing-marker message, then on any missing-field message). -/
def allPfxsHaveComments (errors : List ValidationError) : Bool :=
  errors.all
    (fun e => !goContains e.message "Missing required comment prefix:" &&
      !goContains e.message "Missing required field")

/-- `hasValidComments`: a resource is judged already fixed when some
preceding comment starts with a managed marker and carries a colon, and
no structural error remains.  (Go returns `allPrefixesHaveComments` for
the first marker-shaped comment; since that value does not depend on the
comment, this equals the conjunction below.) -/
def hasValidComments (r : TerraformResource) (errors : List ValidationError) : Bool :=
  r.precedingComments.any
    (fun c => (goHasPfx c.raw "# @" || goHasPfx c.raw "# terraform:") && goContains c.raw ":")
  && allPfxsHaveComments errors

/-- The upward scan of `findInsertionPoint`, starting at 0-based slice
index `i` of the line directly above... in Go, at `resourceStartLine - 1`
(the Go caller passes the parser's 1-based start line, so the scan in
fact starts on the resource declaration line itself).  Out-of-range
indices read as empty lines. -/
def findInsertionPointAux (lines : List String) : Nat → Nat
  | 0 => 0
  | Nat.succ k =>
    let insertLine := Nat.succ k
    let trimmed := goTrim (lines.getD insertLine "")
    if trimmed = "" then insertLine
    else if goHasPfx trimmed "#" then
      if goHasPfx trimmed "# @" || goHasPfx trimmed "# terraform:" then
        findInsertionPointAux lines k
      else insertLine + 1
    else insertLine + 1

/-- `findInsertionPoint`. -/
def findInsertionPoint (lines : List String) (resourceStartLine : Int) : Nat :=
  if resourceStartLine - 1 < 0 then 0
  else findInsertionPointAux lines (resourceStartLine - 1).toNat

/-- `insertLines`: splice `newLines` into `lines` at `position`, clamped
to the valid range. -/
def insertLines (lines : List String) (position : Int) (newLines : List String) : List String :=
  let pos := min position.toNat lines.length
  lines.take pos ++ newLines ++ lines.drop pos

/-- The per-resource body of the `FixFile` loop. -/
def fixResourceStep (schema : ValidationSchema) (errors : List ValidationError)
    (acc : List String × Nat) (r : TerraformResource) : List String × Nat :=
  let resourceKey := r.type ++ "." ++ r.name
  let resourceErrors := errorsForResource errors resourceKey
  if resourceErrors.isEmpty then acc
  else if hasValidComments r resourceErrors then acc
  else
    let fixes := generateFixes schema r resourceErrors
    if fixes.isEmpty then acc
    else
      let insertLine := findInsertionPoint acc.1 r.startLine
      let commentBlock := buildCommentBlock schema fixes
      (insertLines acc.1 (insertLine : Int) commentBlock, acc.2 + fixes.length)

/-- `FixFile` on in-memory content: split into lines, process every
resource, and return the patched lines with the fix count.  (The Go
function reads the file, splits on newlines, and joins the result with
newlines; the claims are stated at the line level.) -/
def fixFileLines (schema : ValidationSchema) (content : String)
    (resources : List TerraformResource) (errors : List ValidationError) :
    List String × Nat :=
  resources.foldl (fixResourceStep schema errors) (goSplitChar content '\n', 0)

/-! ## Derived notions used by the claims -/

/-- Path lookup through nested field maps: the value reached by reading
each segment in turn, entering nested maps at every intermediate
segment. -/
def getPath : Fields → List String → Option Value
  | _, [] => none
  | fields, [p] => alistLookup fields p
  | fields, p :: rest =>
    match alistLookup fields p with
    | some (.obj m) => getPath m rest
    | _ => none

/-- Position of the first intermediate segment of a dotted path that
already holds a non-map value (`none` when navigation can create or
enter maps all the way down, as `setNestedField` then does). -/
def conflictDepth : Fields → List String → Option Nat
  | _, [] => none
  | _, [_] => none
  | fields, p :: rest =>
    match alistLookup fields p with
    | none => none
    | some (.obj m) => (conflictDepth m rest).map (· + 1)
    | some _ => some 0

/-- The resolved rule set's structural demands, as in claim C4: every
required marker is carried by some associated comment, and every comment
under a marker rule carries every required flat field and every required
nested field. -/
def carriesAllRequired (rules : ResourceRules) (r : TerraformResource) : Prop :=
  (∀ p ∈ rules.requiredPfxs, (getCommentsByPfx r p).isEmpty = false)
  ∧ ∀ pr ∈ rules.prefixRules, ∀ c ∈ getCommentsByPfx r pr.1,
      (∀ f ∈ pr.2.requiredFields, fieldExists c.fields f = true)
      ∧ ∀ nr ∈ pr.2.nestedFields, ∀ f ∈ nr.2.requiredFields,
          fieldExists c.fields (nr.1 ++ "." ++ f) = true

/-- Adding one required field to the rule of marker `pfx` inside a
prefix-rule table. -/
def addRequiredField (prs : List (String × PrefixRule)) (pfx f : String) :
    List (String × PrefixRule) :=
  prs.map
    (fun pr =>
      if pr.1 = pfx then
        (pr.1, { pr.2 with requiredFields := pr.2.requiredFields ++ [f] })
      else pr)

/-! ## Concrete scenario data -/

/-- A regular-expression oracle accepting everything (no schema in the
concrete scenarios sets a pattern, so the choice is irrelevant). -/
def rxAlways : String → String → Bool := fun _ _ => true

/-- The marker list wired into the application pipeline
(`internal/app/fix.go`, `internal/app/validate.go`). -/
def pfxsApp : List String := ["@metadata", "@docs", "@validation", "@config"]

/-- The schema of end-to-end scenario 1: marker `@metadata` required,
with required fields `owner` and `team`. -/
def schemaC1 : ValidationSchema :=
  { global :=
      { requiredPfxs := ["@metadata"]
        prefixRules := [("@metadata",
          { requiredFields := ["owner", "team"], optionalFields := [], nestedFields := [] })] }
    resourceTypes := []
    fieldValidations := [] }

/-- The input file of end-to-end scenario 1: a single resource carrying
no structured comment. -/
def contentC1 : String :=
  "resource \"aws_instance\" \"web\" \x7b\n  ami = \"abc\"\n\x7d"

/-- The file of scenario 1 after fixing. -/
def fixedLinesC1 : List String :=
  "# @metadata owner:CHANGEME team:CHANGEME" :: goSplitChar contentC1 '\n'

/-! ## Supporting lemmas -/

theorem alistLookup_insert_self {α : Type} (m : List (String × α)) (k : String) (v : α) :
    alistLookup (alistInsert m k v) k = some v := by
  induction m with
  | nil => simp [alistInsert, alistLookup]
  | cons hd tl ih =>
    by_cases h : hd.1 = k
    · simp [alistInsert, alistLookup, h]
    · simp [alistInsert, alistLookup, h, ih]

theorem mem_errIf {e err : ValidationError} {b : Prop} [Decidable b]
    (h : e ∈ errIf b err) : e = err := by
  unfold errIf at h
  split at h
  · simpa using h
  · simp at h

theorem errIf_severity {e err : ValidationError} {b : Prop} [Decidable b]
    (h : e ∈ errIf b err) (hs : err.severity = "error") : e.severity = "error" := by
  rw [mem_errIf h]; exact hs

theorem sublist_insertLines (lines : List String) (pos : Int) (newLines : List String) :
    lines.Sublist (insertLines lines pos newLines) := by
  show lines.Sublist (List.take (min pos.toNat lines.length) lines ++ newLines ++
    List.drop (min pos.toNat lines.length) lines)
  rw [List.append_assoc]
  conv_lhs => rw [← List.take_append_drop (min pos.toNat lines.length) lines]
  exact (List.Sublist.refl _).append (List.sublist_append_right _ _)

theorem fixResourceStep_lines (schema : ValidationSchema) (errors : List ValidationError)
    (acc : List String × Nat) (r : TerraformResource) :
    (fixResourceStep schema errors acc r).1 = acc.1 ∨
    ∃ pos newLines, (fixResourceStep schema errors acc r).1 = insertLines acc.1 pos newLines := by
  unfold fixResourceStep
  dsimp only
  split
  · left; rfl
  · split
    · left; rfl
    · split
      · left; rfl
      · right; exact ⟨_, _, rfl⟩

theorem splitOnChar_ne_nil (sep : Char) (cs : List Char) : splitOnChar sep cs ≠ [] := by
  induction cs with
  | nil => simp [splitOnChar]
  | cons c rest ih =>
    unfold splitOnChar
    dsimp only
    split
    · simp
    · split <;> simp

theorem goSplitChar_ne_nil (s : String) (sep : Char) : goSplitChar s sep ≠ [] := by
  unfold goSplitChar
  simp [splitOnChar_ne_nil]

theorem conflictDepth_nil_fields (parts : List String) : conflictDepth [] parts = none := by
  match parts with
  | [] => rfl
  | [p] => rfl
  | p :: q :: rest => rfl

theorem setNestedGo_noConflict :
    ∀ (parts : List String) (fields : Fields) (fullKey value : String),
      parts ≠ [] → conflictDepth fields parts = none →
      getPath (setNestedGo fields fullKey parts value) parts = some (parseValue value) := by
  intro parts
  induction parts with
  | nil => intro _ _ _ h _; exact absurd rfl h
  | cons p rest ih =>
    intro fields fullKey value _ hc
    cases rest with
    | nil =>
      show alistLookup (alistInsert fields p (parseValue value)) p = some (parseValue value)
      exact alistLookup_insert_self _ _ _
    | cons q rest2 =>
      cases hl : alistLookup fields p with
      | none =>
        simp only [setNestedGo, hl, getPath, alistLookup_insert_self]
        exact ih [] fullKey value (by simp) (conflictDepth_nil_fields _)
      | some v =>
        cases v with
        | obj m =>
          simp only [conflictDepth, hl, Option.map_eq_none'] at hc
          simp only [setNestedGo, hl, getPath, alistLookup_insert_self]
          exact ih m fullKey value (by simp) hc
        | str s => simp [conflictDepth, hl] at hc
        | boolean b => simp [conflictDepth, hl] at hc
        | intv n => simp [conflictDepth, hl] at hc
        | floatv x => simp [conflictDepth, hl] at hc
        | arr xs => simp [conflictDepth, hl] at hc

theorem getPath_cons (fields : Fields) (p : String) (rest : List String) (h : rest ≠ []) :
    getPath fields (p :: rest) =
      (match alistLookup fields p with
       | some (.obj m) => getPath m rest
       | _ => none) := by
  cases rest with
  | nil => exact absurd rfl h
  | cons q rest2 => rfl

theorem setNestedGo_conflict :
    ∀ (parts : List String) (i : Nat) (fields : Fields) (fullKey value : String),
      conflictDepth fields parts = some i →
      getPath (setNestedGo fields fullKey parts value) (parts.take i ++ [fullKey]) =
        some (parseValue value) := by
  intro parts
  induction parts with
  | nil => intro i fields _ _ hc; simp [conflictDepth] at hc
  | cons p rest ih =>
    intro i fields fullKey value hc
    cases rest with
    | nil => simp [conflictDepth] at hc
    | cons q rest2 =>
      cases hl : alistLookup fields p with
      | none => simp [conflictDepth, hl] at hc
      | some v =>
        cases v with
        | obj m =>
          simp only [conflictDepth, hl] at hc
          rcases Option.map_eq_some'.mp hc with ⟨j, hj, hij⟩
          subst hij
          simp only [setNestedGo, hl, List.take_succ_cons, List.cons_append]
          rw [getPath_cons _ _ _ (by simp), alistLookup_insert_self]
          exact ih j m fullKey value hj
        | str s =>
          simp only [conflictDepth, hl] at hc
          have hi : i = 0 := by simpa using hc.symm
          subst hi
          simp only [setNestedGo, hl, List.take_zero, List.nil_append]
          show alistLookup (alistInsert fields fullKey (parseValue value)) fullKey = _
          exact alistLookup_insert_self _ _ _
        | boolean b =>
          simp only [conflictDepth, hl] at hc
          have hi : i = 0 := by simpa using hc.symm
          subst hi
          simp only [setNestedGo, hl, List.take_zero, List.nil_append]
          show alistLookup (alistInsert fields fullKey (parseValue value)) fullKey = _
          exact alistLookup_insert_self _ _ _
        | intv n =>
          simp only [conflictDepth, hl] at hc
          have hi : i = 0 := by simpa using hc.symm
          subst hi
          simp only [setNestedGo, hl, List.take_zero, List.nil_append]
          show alistLookup (alistInsert fields fullKey (parseValue value)) fullKey = _
          exact alistLookup_insert_self _ _ _
        | floatv x =>
          simp only [conflictDepth, hl] at hc
          have hi : i = 0 := by simpa using hc.symm
          subst hi
          simp only [setNestedGo, hl, List.take_zero, List.nil_append]
          show alistLookup (alistInsert fields fullKey (parseValue value)) fullKey = _
          exact alistLookup_insert_self _ _ _
        | arr xs =>
          simp only [conflictDepth, hl] at hc
          have hi : i = 0 := by simpa using hc.symm
          subst hi
          simp only [setNestedGo, hl, List.take_zero, List.nil_append]
          show alistLookup (alistInsert fields fullKey (parseValue value)) fullKey = _
          exact alistLookup_insert_self _ _ _

/-! ## Claim theorems -/

/-- Claim C1.  End-to-end fix scenario: the schema requires marker `@metadata`
with fields `owner` and `team` and the input resource carries no
structured comment.  The validator emits exactly one error, with message
`Missing required comment prefix: @metadata`; the fixer returns the
original lines with the single line
`# @metadata owner:CHANGEME team:CHANGEME` inserted immediately above
the resource declaration (the file's first line) and fix count 1; and
parsing and validating the fixed lines yields zero errors. -/
theorem end_to_end_fix_scenario :
    (validateResources rxAlways schemaC1 (parseTf pfxsApp (goSplitChar contentC1 '\n'))).errors =
      [{ resourceType := "aws_instance", resourceName := "web", line := 1,
         severity := "error", message := "Missing required comment prefix: @metadata" }]
    ∧ fixFileLines schemaC1 contentC1 (parseTf pfxsApp (goSplitChar contentC1 '\n'))
        (validateResources rxAlways schemaC1 (parseTf pfxsApp (goSplitChar contentC1 '\n'))).errors =
      (fixedLinesC1, 1)
    ∧ (validateResources rxAlways schemaC1 (parseTf pfxsApp fixedLinesC1)).errors = [] :=
  ⟨rfl, rfl, rfl⟩

/-- Claim C2 (code bug).  Evaluating `parseValue` at the claim's four coercion
examples: strings, booleans and integers round-trip as claimed, but
`"99.9"` is stored as the integer `99`, not as the float `99.9` — Go's
`fmt.Sscanf(value, "%d", ...)` accepts the leading digit run of `99.9`
and ignores the trailing `.9`, so the integer rule fires first.  The
same value reaches the comment's field map as an integer. -/
theorem parseValue_decimal_token_is_int :
    parseValue "team-a" = Value.str "team-a"
    ∧ parseValue "true" = Value.boolean true
    ∧ parseValue "3" = Value.intv 3
    ∧ parseValue "99.9" = Value.intv 99
    ∧ parseValue "[a, b]" = Value.arr [.str "a", .str "b"]
    ∧ alistLookup (parseCommentFields ["@metadata"] "@metadata uptime:99.9") "uptime" =
        some (Value.intv 99) :=
  ⟨rfl, rfl, rfl, rfl, rfl, rfl⟩

/-- Claim C6.  Comment-resource association: a comment block is assigned to a
resource's preceding comments exactly when `0 < startLine - line ≤ 5`,
and to its inline comments exactly when
`startLine ≤ line ≤ endLine`; the two memberships are independent, so a
block may satisfy neither, either, or both, with no deduplication. -/
theorem comment_association_iff (rtype rname : String) (s e : Int)
    (comments : List StructuredComment) (c : StructuredComment) :
    (c ∈ (associateComments rtype rname s e comments).precedingComments ↔
      c ∈ comments ∧ 0 < s - c.line ∧ s - c.line ≤ 5)
    ∧ (c ∈ (associateComments rtype rname s e comments).inlineComments ↔
      c ∈ comments ∧ s ≤ c.line ∧ c.line ≤ e) := by
  constructor
  · simp only [associateComments, List.mem_filter, decide_eq_true_eq]
    constructor
    · rintro ⟨h1, h2, h3⟩
      exact ⟨h1, by omega, by omega⟩
    · rintro ⟨h1, h2, h3⟩
      exact ⟨h1, by omega, by omega⟩
  · simp only [associateComments, List.mem_filter, decide_eq_true_eq]

/-- Claim C8.  Unrecognized-marker drop: when the first cleaned line of a
comment block starts with none of the configured markers (exact string
prefix match), the block yields no structured comment; the parser is a
total function into `Option`, so no error is raised. -/
theorem unmatched_block_dropped (pfxs : List String) (lines : List String) (s e : Int)
    (h : ∀ first rest, cleanCommentLines lines = first :: rest →
      ∀ p ∈ pfxs, goHasPfx first p = false) :
    parseMultiLineComment pfxs lines s e = none := by
  unfold parseMultiLineComment
  split
  · rfl
  · cases hc : cleanCommentLines lines with
    | nil => simp [hc]
    | cons first rest =>
      have hn : pfxs.find? (fun p => goHasPfx first p) = none :=
        List.find?_eq_none.mpr (fun p hp => by simp [h first rest hc p hp])
      simp [hc, hn]

/-- Claim C8 witness: a free-text comment block is dropped with the standard
marker configuration. -/
theorem unmatched_block_dropped_witness :
    parseMultiLineComment pfxsApp ["# provision the bastion host"] 1 1 = none := by
  apply unmatched_block_dropped
  intro first rest hfr p hp
  rw [show cleanCommentLines ["# provision the bastion host"] =
    ["provision the bastion host"] from rfl] at hfr
  injection hfr with h1 h2
  subst h1
  fin_cases hp <;> rfl

/-- Claim C10.  Frame property of the fixer: the patched line list always
contains every line of the original file, unmodified and in the original
relative order (the original lines form a sublist of the output); the
fixer only ever splices in new comment lines. -/
theorem fixer_frame_property (schema : ValidationSchema) (content : String)
    (resources : List TerraformResource) (errors : List ValidationError) :
    (goSplitChar content '\n').Sublist (fixFileLines schema content resources errors).1 := by
  unfold fixFileLines
  suffices h : ∀ (l : List TerraformResource) (acc : List String × Nat),
      acc.1.Sublist ((l.foldl (fixResourceStep schema errors) acc).1) by
    exact h resources (goSplitChar content '\n', 0)
  intro l
  induction l with
  | nil => intro acc; exact List.Sublist.refl _
  | cons r rest ih =>
    intro acc
    refine List.Sublist.trans ?_ (ih (fixResourceStep schema errors acc r))
    rcases fixResourceStep_lines schema errors acc r with h | ⟨pos, nl, h⟩
    · rw [h]
    · rw [h]; exact sublist_insertLines _ _ _

/-- The fields map of the C5 counterexample: key `a` holds a map whose
key `b` holds the non-map value `5`. -/
def fieldsCX5 : Fields := [("a", .obj [("b", .intv 5)])]

/-- Claim C5 counterexample: for the dotted key `a.b.c`, the intermediate
segment `b` holds a non-map value, and the parser does NOT store the
full dotted key at the top level of the fields mapping — the top-level
lookup misses, because the literal key lands inside the map under
`a`. -/
theorem setNestedField_toplevel_counterexample :
    alistLookup (setNestedField fieldsCX5 "a.b.c" "v") "a.b.c" = none
    ∧ setNestedField fieldsCX5 "a.b.c" "v" =
        [("a", .obj [("b", .intv 5), ("a.b.c", .str "v")])] :=
  ⟨rfl, rfl⟩

/-- Claim C5 (amended).  Dotted-key fallback: when navigation along the dotted
key meets no conflicting non-map value, every segment but the last
becomes a nested mapping key and the parsed value sits at the end of the
path; and when the first conflicting intermediate segment is at position
`i`, the parser stores the full dotted key literally as a key in the
mapping reached after `i` segments — the level where the conflict
occurs, which is the top level only when the first segment conflicts.
Either way `setNestedField` is total: no error is raised. -/
theorem setNestedField_conflict_level (fields : Fields) (key value : String) :
    (conflictDepth fields (goSplitChar key '.') = none →
      getPath (setNestedField fields key value) (goSplitChar key '.') = some (parseValue value))
    ∧ ∀ i, conflictDepth fields (goSplitChar key '.') = some i →
      getPath (setNestedField fields key value) ((goSplitChar key '.').take i ++ [key]) =
        some (parseValue value) := by
  constructor
  · intro h
    exact setNestedGo_noConflict _ _ _ _ (goSplitChar_ne_nil key '.') h
  · intro i h
    exact setNestedGo_conflict _ i _ _ _ h

/-- Claim C5 witness: both branches of the amended statement at concrete
inputs — conflict-free nesting for `contact.email` over empty fields,
and the conflict branch on `fieldsCX5`. -/
theorem setNestedField_conflict_level_witness :
    getPath (setNestedField [] "contact.email" "a@b.com") (goSplitChar "contact.email" '.') =
      some (parseValue "a@b.com")
    ∧ getPath (setNestedField fieldsCX5 "a.b.c" "v")
        ((goSplitChar "a.b.c" '.').take 1 ++ ["a.b.c"]) = some (parseValue "v") :=
  ⟨(setNestedField_conflict_level [] "contact.email" "a@b.com").1 rfl,
   (setNestedField_conflict_level fieldsCX5 "a.b.c" "v").2 1 rfl⟩

/-- Claim C7.  Zero-bound quirk: for an integer-typed or float-typed field
validation applied to a value of the matching type, the result is
exactly the guarded pair of bound errors: a below-minimum error is
emitted if and only if the configured minimum is non-zero AND the value
is strictly below it, and an exceeds-maximum error if and only if the
configured maximum is non-zero AND the value is strictly above it.
Bounds are inclusive, and — the documented quirk — with both bounds
configured as exactly 0 no bound error is ever emitted, whatever the
value. -/
theorem zero_bound_enforcement (rxOk : String → String → Bool) (r : TerraformResource)
    (c : StructuredComment) (pfx f : String) (allowed : List String) (pat : String)
    (minLen : Int) (mn mx : Rat) (minIt : Int) (n : Int) (q : Rat) :
    (validateFieldValue rxOk r c pfx f (.intv n) ⟨"integer", allowed, pat, minLen, mn, mx, minIt⟩ =
      errIf (mn ≠ 0 ∧ (n : Rat) < mn)
        (mkValErr r c.line (pfx ++ ": Field '" ++ f ++ "' value " ++ toString n ++
          " is below minimum " ++ showRat mn))
      ++ errIf (mx ≠ 0 ∧ mx < (n : Rat))
        (mkValErr r c.line (pfx ++ ": Field '" ++ f ++ "' value " ++ toString n ++
          " exceeds maximum " ++ showRat mx)))
    ∧ (validateFieldValue rxOk r c pfx f (.floatv q) ⟨"float", allowed, pat, minLen, mn, mx, minIt⟩ =
      errIf (mn ≠ 0 ∧ q < mn)
        (mkValErr r c.line (pfx ++ ": Field '" ++ f ++ "' value " ++ showRat q ++
          " is below minimum " ++ showRat mn))
      ++ errIf (mx ≠ 0 ∧ mx < q)
        (mkValErr r c.line (pfx ++ ": Field '" ++ f ++ "' value " ++ showRat q ++
          " exceeds maximum " ++ showRat mx)))
    ∧ validateFieldValue rxOk r c pfx f (.intv n) ⟨"integer", allowed, pat, minLen, 0, 0, minIt⟩ = []
    ∧ validateFieldValue rxOk r c pfx f (.floatv q) ⟨"float", allowed, pat, minLen, 0, 0, minIt⟩ = [] := by
  refine ⟨rfl, rfl, ?_, ?_⟩ <;> rfl

theorem mem_singleton_severity {e err : ValidationError}
    (h : e ∈ [err]) (hs : err.severity = "error") : e.severity = "error" := by
  rw [List.mem_singleton.mp h]; exact hs

theorem sev_errIf2 {e e1 e2 : ValidationError} {A B : Prop} [Decidable A] [Decidable B]
    (h : e ∈ errIf A e1 ++ errIf B e2)
    (h1 : e1.severity = "error") (h2 : e2.severity = "error") : e.severity = "error" := by
  rcases List.mem_append.mp h with h' | h'
  · rw [mem_errIf h']; exact h1
  · rw [mem_errIf h']; exact h2

theorem sev_errIf3 {e e1 e2 e3 : ValidationError} {A B C : Prop}
    [Decidable A] [Decidable B] [Decidable C]
    (h : e ∈ errIf A e1 ++ errIf B e2 ++ errIf C e3)
    (h1 : e1.severity = "error") (h2 : e2.severity = "error") (h3 : e3.severity = "error") :
    e.severity = "error" := by
  rcases List.mem_append.mp h with h' | h'
  · rcases List.mem_append.mp h' with h'' | h''
    · rw [mem_errIf h'']; exact h1
    · rw [mem_errIf h'']; exact h2
  · rw [mem_errIf h']; exact h3

theorem sev_validateFieldValue {rxOk : String → String → Bool} {r : TerraformResource}
    {c : StructuredComment} {pfx f : String} {v : Value} {val : FieldValidation}
    {e : ValidationError} (he : e ∈ validateFieldValue rxOk r c pfx f v val) :
    e.severity = "error" := by
  unfold validateFieldValue at he
  split at he
  · split at he
    · exact sev_errIf3 he rfl rfl rfl
    all_goals exact mem_singleton_severity he rfl
  · split at he
    · split at he
      · exact absurd he (by simp)
      all_goals exact mem_singleton_severity he rfl
    · split at he
      · split at he
        · exact sev_errIf2 he rfl rfl
        all_goals exact mem_singleton_severity he rfl
      · split at he
        · split at he
          · exact sev_errIf2 he rfl rfl
          all_goals exact mem_singleton_severity he rfl
        · split at he
          · split at he
            · rw [mem_errIf he]; rfl
            all_goals exact mem_singleton_severity he rfl
          · exact absurd he (by simp)

theorem sev_validateNestedFields {r : TerraformResource} {c : StructuredComment}
    {pfx np : String} {rule : NestedRule} {e : ValidationError}
    (he : e ∈ validateNestedFields r c pfx np rule) : e.severity = "error" := by
  unfold validateNestedFields at he
  split at he
  · exact absurd he (by simp)
  · rw [mem_errIf he]; rfl
  · rcases List.mem_filterMap.mp he with ⟨f, _, hfe⟩
    split at hfe
    · dsimp only at hfe
      split at hfe
      · cases hfe
      · cases hfe; rfl
    · split at hfe
      · cases hfe
      · cases hfe; rfl

theorem sev_validateFieldValues {rxOk : String → String → Bool}
    {fvs : List (String × FieldValidation)} {r : TerraformResource} {c : StructuredComment}
    {pfx : String} {e : ValidationError}
    (he : e ∈ validateFieldValues rxOk fvs r c pfx) : e.severity = "error" := by
  unfold validateFieldValues at he
  rcases List.mem_flatMap.mp he with ⟨fv, _, hfe⟩
  split at hfe
  · exact absurd hfe (by simp)
  · split at hfe
    · exact absurd hfe (by simp)
    · exact sev_validateFieldValue hfe

theorem sev_checkRequiredPfxs {r : TerraformResource} {rules : ResourceRules}
    {e : ValidationError} (he : e ∈ checkRequiredPfxs r rules) : e.severity = "error" := by
  unfold checkRequiredPfxs at he
  rcases List.mem_filterMap.mp he with ⟨p, _, hpe⟩
  split at hpe
  · cases hpe; rfl
  · cases hpe

theorem sev_validatePfxFields {rxOk : String → String → Bool}
    {fvs : List (String × FieldValidation)} {r : TerraformResource} {c : StructuredComment}
    {pfx : String} {rule : PrefixRule} {e : ValidationError}
    (he : e ∈ validatePfxFields rxOk fvs r c pfx rule) : e.severity = "error" := by
  unfold validatePfxFields at he
  rcases List.mem_append.mp he with h' | h'
  · rcases List.mem_append.mp h' with h'' | h''
    · rcases List.mem_filterMap.mp h'' with ⟨f, _, hfe⟩
      split at hfe
      · cases hfe
      · cases hfe; rfl
    · rcases List.mem_flatMap.mp h'' with ⟨nr, _, hne⟩
      exact sev_validateNestedFields hne
  · exact sev_validateFieldValues h'

theorem sev_validateResourceRules {rxOk : String → String → Bool}
    {fvs : List (String × FieldValidation)} {rules : ResourceRules} {r : TerraformResource}
    {e : ValidationError} (he : e ∈ validateResourceRules rxOk fvs rules r) :
    e.severity = "error" := by
  unfold validateResourceRules at he
  rcases List.mem_append.mp he with h' | h'
  · exact sev_checkRequiredPfxs h'
  · rcases List.mem_flatMap.mp h' with ⟨pr, _, hpe⟩
    rcases List.mem_flatMap.mp hpe with ⟨cm, _, hce⟩
    exact sev_validatePfxFields hce

theorem validateResources_eq (rxOk : String → String → Bool) (schema : ValidationSchema)
    (resources : List TerraformResource) :
    validateResources rxOk schema resources =
      { errors := resources.flatMap
          (fun r => validateResourceRules rxOk schema.fieldValidations
            (getApplicableRules schema r.type) r)
        passed := resources.all
          (fun r => (validateResourceRules rxOk schema.fieldValidations
            (getApplicableRules schema r.type) r).isEmpty) } := by
  unfold validateResources
  suffices h : ∀ (l : List TerraformResource) (acc : ValidationResult),
      l.foldl (fun acc r =>
        let errs := validateResourceRules rxOk schema.fieldValidations
          (getApplicableRules schema r.type) r
        { errors := acc.errors ++ errs, passed := acc.passed && errs.isEmpty }) acc =
      { errors := acc.errors ++ l.flatMap
          (fun r => validateResourceRules rxOk schema.fieldValidations
            (getApplicableRules schema r.type) r)
        passed := acc.passed && l.all
          (fun r => (validateResourceRules rxOk schema.fieldValidations
            (getApplicableRules schema r.type) r).isEmpty) } by
    simpa using h resources { errors := [], passed := true }
  intro l
  induction l with
  | nil => intro acc; simp
  | cons r rest ih =>
    intro acc
    rw [List.foldl_cons, ih]
    simp [Bool.and_assoc]

/-- Claim C9.  Severity invariant: every error the schema validator emits —
for every regular-expression semantics, schema and resource list —
carries severity `"error"`, never `"warning"`; and the aggregate
`passed` flag is true exactly when the aggregated error list is
empty. -/
theorem severity_and_passed_invariant (rxOk : String → String → Bool)
    (schema : ValidationSchema) (resources : List TerraformResource) :
    (∀ e ∈ (validateResources rxOk schema resources).errors, e.severity = "error")
    ∧ ((validateResources rxOk schema resources).passed = true ↔
        (validateResources rxOk schema resources).errors = []) := by
  rw [validateResources_eq]
  constructor
  · intro e he
    rcases List.mem_flatMap.mp he with ⟨r, _, her⟩
    exact sev_validateResourceRules her
  · simp only [List.all_eq_true, List.flatMap_eq_nil_iff, List.isEmpty_iff]

/-- Claim C9 witness: the invariant applied to the concrete scenario-1 run,
whose single emitted error indeed has severity `"error"`. -/
theorem severity_and_passed_invariant_witness :
    ({ resourceType := "aws_instance", resourceName := "web", line := 1,
       severity := "error",
       message := "Missing required comment prefix: @metadata" } : ValidationError).severity =
      "error" :=
  (severity_and_passed_invariant rxAlways schemaC1
    (parseTf pfxsApp (goSplitChar contentC1 '\n'))).1 _ (by decide)

theorem validatePfxFields_addField {rxOk : String → String → Bool}
    {fvs : List (String × FieldValidation)} {r : TerraformResource} {c : StructuredComment}
    {pfx : String} {rule : PrefixRule} {f : String} {e : ValidationError}
    (he : e ∈ validatePfxFields rxOk fvs r c pfx rule) :
    e ∈ validatePfxFields rxOk fvs r c pfx
      { rule with requiredFields := rule.requiredFields ++ [f] } := by
  unfold validatePfxFields at he ⊢
  simp only [List.filterMap_append, List.mem_append] at he ⊢
  tauto

/-- Claim C3.  Validator monotonicity: with the resource's comments unchanged,
appending a required marker to the resolved rule set's required-marker
list, or appending a required field to one of its marker rules, yields a
violation list containing every violation produced under the original
rule set; violations are only added or preserved, never removed. -/
theorem validator_monotonicity (rxOk : String → String → Bool)
    (fvs : List (String × FieldValidation)) (rules : ResourceRules) (r : TerraformResource) :
    (∀ (p : String) (e : ValidationError),
        e ∈ validateResourceRules rxOk fvs rules r →
        e ∈ validateResourceRules rxOk fvs ⟨rules.requiredPfxs ++ [p], rules.prefixRules⟩ r)
    ∧ (∀ (pfx f : String) (e : ValidationError),
        e ∈ validateResourceRules rxOk fvs rules r →
        e ∈ validateResourceRules rxOk fvs
          ⟨rules.requiredPfxs, addRequiredField rules.prefixRules pfx f⟩ r) := by
  constructor
  · intro p e he
    unfold validateResourceRules checkRequiredPfxs at he ⊢
    simp only [List.filterMap_append, List.mem_append] at he ⊢
    tauto
  · intro pfx f e he
    unfold validateResourceRules at he ⊢
    simp only [List.mem_append] at he ⊢
    rcases he with h | h
    · left; exact h
    · right
      rcases List.mem_flatMap.mp h with ⟨pr, hpr, hpre⟩
      rcases List.mem_flatMap.mp hpre with ⟨cm, hcm, hce⟩
      by_cases hp : pr.1 = pfx
      · refine List.mem_flatMap.mpr
          ⟨(pr.1, { pr.2 with requiredFields := pr.2.requiredFields ++ [f] }), ?_, ?_⟩
        · unfold addRequiredField
          exact List.mem_map.mpr ⟨pr, hpr, by simp [hp]⟩
        · exact List.mem_flatMap.mpr ⟨cm, hcm, validatePfxFields_addField hce⟩
      · refine List.mem_flatMap.mpr ⟨pr, ?_, List.mem_flatMap.mpr ⟨cm, hcm, hce⟩⟩
        unfold addRequiredField
        exact List.mem_map.mpr ⟨pr, hpr, by simp [hp]⟩

/-- A rule set and a bare resource used to witness the monotonicity
theorem. -/
def rulesW3 : ResourceRules :=
  ⟨["@metadata"], [("@metadata", ⟨["owner"], [], []⟩)]⟩

/-- A resource with no comments at all. -/
def resW3 : TerraformResource := ⟨"aws_vpc", "main", 1, 3, [], []⟩

/-- The missing-marker violation that `resW3` produces under
`rulesW3`. -/
def errW3 : ValidationError :=
  ⟨"aws_vpc", "main", 1, "error", "Missing required comment prefix: @metadata"⟩

/-- Claim C3 witness: the violation emitted under the original rules survives
both the addition of a required marker and the addition of a required
field. -/
theorem validator_monotonicity_witness :
    errW3 ∈ validateResourceRules rxAlways []
      ⟨rulesW3.requiredPfxs ++ ["@docs"], rulesW3.prefixRules⟩ resW3
    ∧ errW3 ∈ validateResourceRules rxAlways []
      ⟨rulesW3.requiredPfxs, addRequiredField rulesW3.prefixRules "@metadata" "team"⟩ resW3 :=
  ⟨(validator_monotonicity rxAlways [] rulesW3 resW3).1 "@docs" errW3 (by decide),
   (validator_monotonicity rxAlways [] rulesW3 resW3).2 "@metadata" "team" errW3 (by decide)⟩

instance (rules : ResourceRules) (r : TerraformResource) :
    Decidable (carriesAllRequired rules r) := by
  unfold carriesAllRequired
  infer_instance

theorem collectMissingStep_clean {acc : List String × List (String × List String)}
    {e : ValidationError}
    (h1 : goContains e.message "Missing required comment prefix:" = false)
    (h2 : goContains e.message "Missing required field" = false) :
    collectMissingStep acc e = acc := by
  simp [collectMissingStep, h1, h2]

theorem foldl_collectMissing_id :
    ∀ (l : List ValidationError),
      (∀ e ∈ l, goContains e.message "Missing required comment prefix:" = false ∧
        goContains e.message "Missing required field" = false) →
      ∀ acc, l.foldl collectMissingStep acc = acc := by
  intro l
  induction l with
  | nil => intro _ acc; rfl
  | cons e rest ih =>
    intro h acc
    rw [List.foldl_cons,
      collectMissingStep_clean (h e (List.mem_cons_self e rest)).1 (h e (List.mem_cons_self e rest)).2]
    exact ih (fun x hx => h x (List.mem_cons_of_mem e hx)) acc

theorem generateFixes_clean {schema : ValidationSchema} {r : TerraformResource}
    {errors : List ValidationError}
    (h : ∀ e ∈ errors, goContains e.message "Missing required comment prefix:" = false ∧
      goContains e.message "Missing required field" = false) :
    generateFixes schema r errors = [] := by
  unfold generateFixes collectMissing
  rw [foldl_collectMissing_id errors h ([], [])]
  rfl

theorem fixResourceStep_clean {schema : ValidationSchema} {errors : List ValidationError}
    {acc : List String × Nat} {r : TerraformResource}
    (h : ∀ e ∈ errors, goContains e.message "Missing required comment prefix:" = false ∧
      goContains e.message "Missing required field" = false) :
    fixResourceStep schema errors acc r = acc := by
  have hre : generateFixes schema r (errorsForResource errors (r.type ++ "." ++ r.name)) = [] :=
    generateFixes_clean (fun e he => h e (List.mem_of_mem_filter he))
  unfold fixResourceStep
  dsimp only
  split
  · rfl
  · split
    · rfl
    · rw [hre]
      rfl

/-- Claim C4 (amended).  Fixer idempotence: for every file whose resources
already carry every required marker and every required (flat or nested)
field demanded by the resolved rules — placeholder values such as
`CHANGEME` included — AND whose remaining validation-error messages do
not contain either of the fixer's trigger phrases
(`Missing required comment prefix:` / `Missing required field`) as a
substring, running the validate-then-fix pipeline again produces fix
count zero and leaves the lines unchanged.  The proviso is forced by the
counterexample below: the fixer recognises missing structure by scanning
message text, so a value error whose rendered allowed-values list embeds
the trigger phrase produces a spurious fix. -/
theorem fixer_idempotence_amended (rxOk : String → String → Bool)
    (schema : ValidationSchema) (content : String) (resources : List TerraformResource)
    (_hcomplete : ∀ r ∈ resources, carriesAllRequired (getApplicableRules schema r.type) r)
    (hclean : ∀ e ∈ (validateResources rxOk schema resources).errors,
      goContains e.message "Missing required comment prefix:" = false ∧
      goContains e.message "Missing required field" = false) :
    fixFileLines schema content resources (validateResources rxOk schema resources).errors =
      (goSplitChar content '\n', 0) := by
  unfold fixFileLines
  suffices h : ∀ (l : List TerraformResource) (acc : List String × Nat),
      l.foldl (fixResourceStep schema (validateResources rxOk schema resources).errors) acc = acc by
    exact h resources _
  intro l
  induction l with
  | nil => intro acc; rfl
  | cons r rest ih =>
    intro acc
    rw [List.foldl_cons, fixResourceStep_clean hclean]
    exact ih acc

/-- The adversarial-but-legal schema of the C4 counterexample: `owner`
is a required string field whose allowed values render (via Go's `%v`)
to `[xMissing required fieldy]` inside the violation message. -/
def schemaCX4 : ValidationSchema :=
  { global :=
      { requiredPfxs := ["@metadata"]
        prefixRules := [("@metadata", ⟨["owner"], [], []⟩)] }
    resourceTypes := []
    fieldValidations :=
      [("owner", ⟨"string", ["xMissing", "required", "fieldy"], "", 0, 0, 0, 0⟩)] }

/-- The C4 counterexample file: its one resource carries the required
marker and the required field (with the placeholder value
`CHANGEME`). -/
def contentCX4 : String :=
  "# @metadata owner:CHANGEME\nresource \"aws_vpc\" \"main\" \x7b\n\x7d"

/-- The parsed resources of the C4 counterexample file. -/
def resourcesCX4 : List TerraformResource :=
  parseTf pfxsApp (goSplitChar contentCX4 '\n')

set_option maxRecDepth 4000 in
/-- Claim C4 counterexample: the file carries every required marker and field,
yet the validate-then-fix pipeline applies one fix and changes the
lines — the value error's message embeds the fixer's
`Missing required field` trigger phrase, so the claim as stated is
false. -/
theorem fixer_idempotence_counterexample :
    (∀ r ∈ resourcesCX4, carriesAllRequired (getApplicableRules schemaCX4 r.type) r)
    ∧ (fixFileLines schemaCX4 contentCX4 resourcesCX4
        (validateResources rxAlways schemaCX4 resourcesCX4).errors).2 = 1
    ∧ (fixFileLines schemaCX4 contentCX4 resourcesCX4
        (validateResources rxAlways schemaCX4 resourcesCX4).errors).1 ≠
      goSplitChar contentCX4 '\n' :=
  ⟨by decide, rfl, by decide⟩

/-- The scenario-1 fixed file re-parsed, as the C4 witness input. -/
def resourcesW4 : List TerraformResource := parseTf pfxsApp fixedLinesC1

/-- Claim C4 witness: the amended theorem applied to the already-fixed
scenario-1 file, whose second pipeline run changes nothing and fixes
nothing. -/
theorem fixer_idempotence_amended_witness :
    fixFileLines schemaC1 (goJoin "\n" fixedLinesC1) resourcesW4
      (validateResources rxAlways schemaC1 resourcesW4).errors =
      (goSplitChar (goJoin "\n" fixedLinesC1) '\n', 0) :=
  fixer_idempotence_amended rxAlways schemaC1 (goJoin "\n" fixedLinesC1) resourcesW4
    (by decide) (by decide)

end Terranotate
